import Mathlib

/-
Verification development for `tagger.py`, a keyword-extraction module
(Tag / MultiTag / Reader / Rater / Tagger).

Modelling conventions:
 - Python strings are modelled as lists of characters (`Str := List Char`);
   `len`, `+`, `' '.join`, `.split()` and `.strip()` become list operations.
 - Python floats are modelled as exact rationals (`ℚ`).  The ratios and
   products the program computes are exact in this model; float rounding is
   not modelled.
 - `Tag.__eq__` / `__hash__` compare stems only, so `collections.Counter`
   and `set` are modelled by counting / deduplicating / discarding by stem.
 - Fallible code returns `Except PyErr`: `zeroDivision` models Python's
   ZeroDivisionError, `nameError` models the NameError raised because
   `Rater.__call__` reads the module-global name `weights` instead of
   `self.weights`.  The parameter `g : Option (Str → ℚ)` is the state of
   that module-global: `none` when the module is merely imported, `some w`
   when a script has bound it (the only configuration in which the rater
   runs at all).
 - `set` iteration order is unspecified in Python; the model keeps first
   insertion order and no theorem below depends on the order of ties.
-/

abbrev Str := List Char

def strL (s : String) : Str := s.data

/-- Python `' '.join(ls)`. -/
def joinSp : List Str → Str
  | [] => []
  | [s] => s
  | s :: t :: rest => s ++ ' ' :: joinSp (t :: rest)

/-- Helper for Python `s.split()`: accumulate the current word (reversed). -/
def pySplitAux : Str → Str → List Str
  | acc, [] => if acc = [] then [] else [acc.reverse]
  | acc, c :: rest =>
    if c.isWhitespace then
      if acc = [] then pySplitAux [] rest else acc.reverse :: pySplitAux [] rest
    else pySplitAux (c :: acc) rest

/-- Python `s.split()` (split on whitespace runs, no empty words). -/
def pySplit (s : Str) : List Str := pySplitAux [] s

inductive PyErr where
  | nameError
  | zeroDivision
deriving DecidableEq

/-- `class Tag`: fields `string`, `stem`, `rating`, `terminal`. -/
structure Tag where
  string : Str
  stem : Str
  rating : ℚ
  terminal : Bool
deriving DecidableEq

/-- `Tag.__init__`: `self.stem = stem or string` — the empty (falsy) stem
falls back to the surface string; `stem = []` also stands for `stem=None`. -/
def Tag.mk' (string stem : Str) (rating : ℚ) (terminal : Bool) : Tag :=
  { string := string, stem := if stem = [] then string else stem,
    rating := rating, terminal := terminal }

/-- `Tag.__lt__`: `self.rating > other.rating` (higher rating sorts first). -/
def tagLt (a b : Tag) : Prop := b.rating < a.rating

/-- `class MultiTag(Tag)` with its `size` field. -/
structure MultiTag where
  string : Str
  stem : Str
  rating : ℚ
  size : ℕ
  terminal : Bool
deriving DecidableEq

/-- `MultiTag.__init__` with `head=None`: `Tag.__init__(self, tail.string,
tail.stem, tail.rating)` (hence the `stem or string` fallback), `size = 1`,
`terminal = tail.terminal`. -/
def mtSeed (tail : Tag) : MultiTag :=
  { string := tail.string,
    stem := if tail.stem = [] then tail.string else tail.stem,
    rating := tail.rating, size := 1, terminal := tail.terminal }

/-- `MultiTag.__init__` with a head: space-concatenates surfaces and stems,
multiplies ratings, increments size, takes the tail's terminal flag. -/
def mtExtend (tail : Tag) (head : MultiTag) : MultiTag :=
  { string := head.string ++ ' ' :: tail.string,
    stem := head.stem ++ ' ' :: tail.stem,
    rating := head.rating * tail.rating,
    size := head.size + 1,
    terminal := tail.terminal }

/-- `MultiTag.__lt__`: compares `rating ** (1.0/size)` (geometric mean),
descending. -/
def mtLt (a b : MultiTag) : Prop :=
  (b.rating : ℝ) ^ (1 / (b.size : ℝ)) < (a.rating : ℝ) ^ (1 / (a.size : ℝ))

/-- Decidable comparison equivalent to `mtLt` on the nonnegative ratings and
positive sizes the rater produces (cross-raising both sides to the power
`size_a * size_b`); proved equivalent in `mtLtB_iff_mtLt` below. -/
def mtLtB (a b : MultiTag) : Bool := decide (b.rating ^ a.size < a.rating ^ b.size)

def mtLeB (a b : MultiTag) : Bool := !(mtLtB b a)

/-- One insertion step of the comparison sort modelling Python `sorted`. -/
def insertLe (le : MultiTag → MultiTag → Bool) (x : MultiTag) : List MultiTag → List MultiTag
  | [] => [x]
  | y :: ys => if le x y then x :: y :: ys else y :: insertLe le x ys

def sortLe (le : MultiTag → MultiTag → Bool) : List MultiTag → List MultiTag
  | [] => []
  | x :: xs => insertLe le x (sortLe le xs)

/-- Python `sorted(...)` on MultiTags: ascending in `MultiTag.__lt__`,
i.e. descending effective rating. -/
def pySorted (l : List MultiTag) : List MultiTag := sortLe mtLeB l

/- ---------------- Reader ---------------- -/

/-- The character set of the `delimiters` string (Python string literal:
the backslashes are literal characters, so `\` itself is in the set). -/
def stripChars : List Char :=
  ['\\', '.', ',', ':', ';', '!', '?', '\"', '(', ')', '[', ']',
   '\x7b', '\x7d', '\n', '\t', '^', '~']

/-- The character class of the regex `[<delimiters>]+` (in the regex the
backslashes escape, so `\` itself is not matched). -/
def splitChars : List Char :=
  ['.', ',', ':', ';', '!', '?', '\"', '(', ')', '[', ']',
   '\x7b', '\x7d', '\n', '\t', '^', '~']

/-- Python `text.strip(delimiters)`. -/
def pyStrip (cs : List Char) (s : Str) : Str :=
  ((s.dropWhile (fun c => c ∈ cs)).reverse.dropWhile (fun c => c ∈ cs)).reverse

/-- Helper for `re.split('[...]+', s)`: `inRun` records whether the previous
character belonged to a delimiter run. -/
def runSplitAux : Bool → Str → Str → List Str
  | _, acc, [] => [acc.reverse]
  | inRun, acc, c :: rest =>
    if c ∈ splitChars then
      if inRun then runSplitAux true acc rest
      else acc.reverse :: runSplitAux true [] rest
    else runSplitAux false (c :: acc) rest

/-- `re.split('[' + delimiters + ']+', s)`: split on maximal delimiter runs
(keeping boundary empties, as `re.split` does). -/
def runSplit (s : Str) : List Str := runSplitAux false [] s

/-- One phrase of the Reader: all words as tags, the last one terminal. -/
def phraseTags (ws : List Str) : List Tag :=
  match ws with
  | [] => []
  | _ :: _ =>
    (ws.dropLast.map (fun w => Tag.mk' w [] 1 false)) ++
      [Tag.mk' (ws.getLastD []) [] 1 true]

/-- `Reader.__call__`: lowercase, strip delimiters, split into phrases on
delimiter runs, split each phrase on whitespace, mark phrase-final words
terminal. -/
def readerCall (text : Str) : List Tag :=
  (runSplit (pyStrip stripChars (text.map Char.toLower))).flatMap
    (fun p => phraseTags (pySplit p))

/- ---------------- Rater ---------------- -/

/-- `collections.Counter(tags)[x]`: tags hash/compare by stem, so this
counts the occurrences of a stem. -/
def termCount (tags : List Tag) (s : Str) : ℕ :=
  (tags.filter (fun t => t.stem = s)).length

/-- The unit-rating loop of `Rater.__call__`.  The source reads the bare
name `weights`, which resolves to the module global, not `self.weights`;
with the global unset (`g = none`) the first iteration raises NameError.
Counts are taken over the whole input list; mutation of `rating` does not
affect stems, so an out-of-place map is faithful. -/
def rateLoop (g : Option (Str → ℚ)) (orig : List Tag) : List Tag → Except PyErr (List Tag)
  | [] => .ok []
  | t :: rest =>
    match g with
    | none => .error .nameError
    | some w =>
      match rateLoop g orig rest with
      | .error e => .error e
      | .ok rest' =>
        .ok ({ t with rating := (termCount orig t.stem : ℚ) / (orig.length : ℚ) * w t.stem } :: rest')

def dummyTag : Tag := { string := [], stem := [], rating := 1, terminal := false }

def tagAt (tags : List Tag) (i : ℕ) : Tag := tags.getD i dummyTag

/-- The inner loop `for j in range(1, multitag_size)` of the multitag
generation: extend the current chain `t` while `i + j < len(tags)` and the
chain is not terminal (when the guard fails the loop keeps running without
appending anything). -/
def genExt (tags : List Tag) (i : ℕ) : MultiTag → ℕ → ℕ → List MultiTag
  | _, _, 0 => []
  | t, j, steps + 1 =>
    if i + j < tags.length ∧ t.terminal = false then
      mtExtend (tagAt tags (i + j)) t ::
        genExt tags i (mtExtend (tagAt tags (i + j)) t) (j + 1) steps
    else genExt tags i t (j + 1) steps

/-- The candidates generated from start position `i`: the seed plus its
extensions. -/
def genAt (tags : List Tag) (msize i : ℕ) : List MultiTag :=
  mtSeed (tagAt tags i) :: genExt tags i (mtSeed (tagAt tags i)) 1 (msize - 1)

/-- The full candidate pool (`multitags` in the source). -/
def genAll (tags : List Tag) (msize : ℕ) : List MultiTag :=
  (List.range tags.length).flatMap (genAt tags msize)

/-- `collections.Counter(multitags)[x]`, again keyed by stem. -/
def mtCount (pool : List MultiTag) (s : Str) : ℕ :=
  (pool.filter (fun m => m.stem = s)).length

/-- `set(multitags)`: one representative per stem, first occurrence kept. -/
def dedupAux (seen : List Str) : List MultiTag → List MultiTag
  | [] => []
  | m :: rest =>
    if m.stem ∈ seen then dedupAux seen rest
    else m :: dedupAux (m.stem :: seen) rest

/-- `unique_tags.discard(x)`: removes the element with the given stem (a
no-op when absent). -/
def discardStem (s : Str) (u : List MultiTag) : List MultiTag :=
  u.filter (fun m => m.stem ≠ s)

/-- Left fold in the `Except` monad (written out so that it unfolds by
`rfl` on concrete lists). -/
def foldME {α : Type} (step : List MultiTag → α → Except PyErr (List MultiTag)) :
    List MultiTag → List α → Except PyErr (List MultiTag)
  | u, [] => .ok u
  | u, a :: rest =>
    match step u a with
    | .error e => .error e
    | .ok u' => foldME step u' rest

/-- `' '.join(words[i:i + j])`, the probed sub-window stem. -/
def probeStem (ws : List Str) (i j : ℕ) : Str := joinSp ((ws.drop i).take j)

/-- The body of the redundancy loop: `relative_freq = float(term_count[t]) /
term_count[subtag]` (ZeroDivisionError when the subtag was never a
candidate), then discard the sub-phrase when `relative_freq >= 0.5 and
t.rating > 0.0`, otherwise discard the candidate itself. -/
def innerStep (cnt : Str → ℕ) (t : MultiTag) (ws : List Str) (i : ℕ)
    (u : List MultiTag) (j : ℕ) : Except PyErr (List MultiTag) :=
  if cnt (probeStem ws i j) = 0 then .error .zeroDivision
  else if (1 : ℚ) / 2 ≤ (cnt t.stem : ℚ) / (cnt (probeStem ws i j) : ℚ) ∧ 0 < t.rating then
    .ok (discardStem (probeStem ws i j) u)
  else .ok (discardStem t.stem u)

/-- The body of `for t in multitags:` in the filtering pass: purge
one-character surfaces, else run `for i in range(len(words)): for j in
range(1, len(words)):` over the words of `t.stem`. -/
def filterOne (cnt : Str → ℕ) (t : MultiTag) (u : List MultiTag) :
    Except PyErr (List MultiTag) :=
  if t.string.length < 2 then .ok (discardStem t.stem u)
  else
    foldME
      (fun u' i => foldME (innerStep cnt t (pySplit t.stem) i) u'
        (List.range' 1 ((pySplit t.stem).length - 1)))
      u (List.range (pySplit t.stem).length)

/-- The whole filtering pass over the candidate pool. -/
def filterPass (cnt : Str → ℕ) (pool : List MultiTag) (u : List MultiTag) :
    Except PyErr (List MultiTag) :=
  foldME (fun u' t => filterOne cnt t u') u pool

/-- `Rater.__call__`: rate units, generate candidates, count them, filter
the deduplicated set, sort the survivors. -/
def raterCall (g : Option (Str → ℚ)) (msize : ℕ) (tags0 : List Tag) :
    Except PyErr (List MultiTag) :=
  match rateLoop g tags0 tags0 with
  | .error e => .error e
  | .ok tags =>
    let pool := genAll tags msize
    match filterPass (mtCount pool) pool (dedupAux [] pool) with
    | .error e => .error e
    | .ok v => .ok (pySorted v)

/-- `class Rater`: the constructor stores `weights` and `multitag_size`. -/
structure Rater where
  weights : Str → ℚ
  multitag_size : ℕ

/-- `Rater.__call__` as a method of a constructed Rater: the stored
`r.weights` is never read by the body (only the module-global `g` is),
which is the defect behind claim C1. -/
def raterMethod (r : Rater) (g : Option (Str → ℚ)) (tags : List Tag) :
    Except PyErr (List MultiTag) :=
  raterCall g r.multitag_size tags

/- ---------------- Tagger ---------------- -/

/-- Python `ls[:n]` for an arbitrary (possibly negative) `n`. -/
def pySliceTo (l : List MultiTag) (n : ℤ) : List MultiTag :=
  if 0 ≤ n then l.take n.toNat else l.take (l.length - (-n).toNat)

/-- `Tagger.__call__`: Reader, then the stemmer over every tag, then the
Rater, then `tags[:tags_number]`.  The stemmer is an external collaborator
and is passed as a function. -/
def taggerCall (stemmer : Tag → Tag) (g : Option (Str → ℚ)) (msize : ℕ)
    (text : Str) (n : ℤ) : Except PyErr (List MultiTag) :=
  match raterCall g msize ((readerCall text).map stemmer) with
  | .error e => .error e
  | .ok res => .ok (pySliceTo res n)

/-- A conforming stemmer (pure function of the surface) used for concrete
runs; `porter` itself is an external dependency of the repository. -/
def idStemmer (t : Tag) : Tag := { t with stem := t.string }

/- ---------------- proof-side descriptions ---------------- -/

/-- The chain of `e` extensions seeded at position `i`: the MultiTag built
from the contiguous run `tags[i .. i+e]`. -/
def chainE (tags : List Tag) (i : ℕ) : ℕ → MultiTag
  | 0 => mtSeed (tagAt tags i)
  | e + 1 => mtExtend (tagAt tags (i + e + 1)) (chainE tags i e)

/- ---------------- basic lemmas ---------------- -/

theorem foldME_cons {α : Type} (step : List MultiTag → α → Except PyErr (List MultiTag))
    (u : List MultiTag) (a : α) (rest : List α) :
    foldME step u (a :: rest) =
      match step u a with
      | .error e => .error e
      | .ok u' => foldME step u' rest := rfl

theorem foldME_nil {α : Type} (step : List MultiTag → α → Except PyErr (List MultiTag))
    (u : List MultiTag) : foldME step u [] = .ok u := rfl

theorem foldME_append {α : Type} (step : List MultiTag → α → Except PyErr (List MultiTag))
    (l1 : List α) : ∀ (u : List MultiTag) (l2 : List α),
    foldME step u (l1 ++ l2) =
      match foldME step u l1 with
      | .error e => .error e
      | .ok u' => foldME step u' l2 := by
  induction l1 with
  | nil => intro u l2; rfl
  | cons a l ih =>
    intro u l2
    rw [List.cons_append, foldME_cons, foldME_cons]
    cases step u a with
    | error e => rfl
    | ok u' => exact ih u' l2

theorem foldME_mono {α : Type} (step : List MultiTag → α → Except PyErr (List MultiTag))
    (l : List α)
    (h : ∀ u a u', step u a = .ok u' → ∀ x ∈ u', x ∈ u) :
    ∀ u v, foldME step u l = .ok v → ∀ x ∈ v, x ∈ u := by
  induction l with
  | nil =>
    intro u v hv x hx
    rw [foldME_nil] at hv
    cases hv
    exact hx
  | cons a l ih =>
    intro u v hv x hx
    rw [foldME_cons] at hv
    cases hs : step u a with
    | error e => rw [hs] at hv; cases hv
    | ok u' =>
      rw [hs] at hv
      exact h u a u' hs x (ih u' v hv x hx)

theorem foldME_ok {α : Type} (step : List MultiTag → α → Except PyErr (List MultiTag))
    (l : List α) (h : ∀ u a, a ∈ l → ∃ u', step u a = .ok u') :
    ∀ u, ∃ v, foldME step u l = .ok v := by
  induction l with
  | nil => intro u; exact ⟨u, rfl⟩
  | cons a l ih =>
    intro u
    obtain ⟨u', hu'⟩ := h u a (List.mem_cons_self a l)
    obtain ⟨v, hv⟩ := ih (fun w b hb => h w b (List.mem_cons_of_mem a hb)) u'
    exact ⟨v, by rw [foldME_cons, hu']; exact hv⟩

theorem mem_discardStem (s : Str) (u : List MultiTag) (x : MultiTag) :
    x ∈ discardStem s u ↔ x ∈ u ∧ x.stem ≠ s := by
  simp [discardStem]

theorem mem_dedupAux (x : MultiTag) : ∀ (seen : List Str) (l : List MultiTag),
    x ∈ dedupAux seen l → x ∈ l := by
  intro seen l
  induction l generalizing seen with
  | nil => intro h; exact absurd h (by simp [dedupAux])
  | cons m rest ih =>
    intro h
    rw [dedupAux] at h
    by_cases hm : m.stem ∈ seen
    · rw [if_pos hm] at h
      exact List.mem_cons_of_mem m (ih _ h)
    · rw [if_neg hm] at h
      rcases List.mem_cons.mp h with h1 | h2
      · exact h1 ▸ List.mem_cons_self m rest
      · exact List.mem_cons_of_mem m (ih _ h2)

/- ---------------- chainE lemmas ---------------- -/

theorem chainE_size (tags : List Tag) (i : ℕ) : ∀ e, (chainE tags i e).size = e + 1 := by
  intro e
  induction e with
  | zero => rfl
  | succ e ih => rw [chainE, mtExtend, ih]

theorem chainE_terminal (tags : List Tag) (i : ℕ) :
    ∀ e, (chainE tags i e).terminal = (tagAt tags (i + e)).terminal := by
  intro e
  cases e with
  | zero => rfl
  | succ e => rfl

theorem tagAt_mem_or (tags : List Tag) (i : ℕ) :
    tagAt tags i ∈ tags ∨ tagAt tags i = dummyTag := by
  by_cases h : i < tags.length
  · exact Or.inl (by rw [tagAt, List.getD_eq_getElem tags dummyTag h]; exact List.getElem_mem h)
  · exact Or.inr (by rw [tagAt, List.getD_eq_default tags dummyTag (Nat.le_of_not_lt h)])

theorem joinSp_append_single (y : Str) : ∀ (xs : List Str), xs ≠ [] →
    joinSp (xs ++ [y]) = joinSp xs ++ ' ' :: y := by
  intro xs
  induction xs with
  | nil => intro h; exact absurd rfl h
  | cons s rest ih =>
    intro _
    cases rest with
    | nil => rfl
    | cons t rest' =>
      have : joinSp (s :: t :: rest' ++ [y]) = s ++ ' ' :: joinSp (t :: rest' ++ [y]) := rfl
      rw [this, ih (by simp), joinSp]
      simp

theorem take_one_drop (tags : List Tag) (i : ℕ) (h : i < tags.length) :
    (tags.drop i).take 1 = [tagAt tags i] := by
  rw [tagAt, List.getD_eq_getElem tags dummyTag h]
  rw [List.drop_eq_getElem_cons h]
  rfl

theorem take_succ_drop (tags : List Tag) (i e : ℕ) (h : i + e + 1 < tags.length) :
    (tags.drop i).take (e + 2) = (tags.drop i).take (e + 1) ++ [tagAt tags (i + e + 1)] := by
  rw [List.take_succ]
  congr 1
  have hlt : e + 1 < (tags.drop i).length := by
    rw [List.length_drop]; omega
  rw [List.getElem?_eq_getElem hlt, List.getElem_drop]
  rw [tagAt, List.getD_eq_getElem tags dummyTag (show i + e + 1 < tags.length by omega)]
  simp only [Option.toList_some]
  rfl

theorem chainE_string (tags : List Tag) (i : ℕ) :
    ∀ e, i + e < tags.length →
    (chainE tags i e).string = joinSp (((tags.drop i).take (e + 1)).map (fun t => t.string)) := by
  intro e
  induction e with
  | zero =>
    intro h
    rw [chainE, mtSeed, take_one_drop tags i (by omega)]
    rfl
  | succ e ih =>
    intro h
    rw [chainE, mtExtend]
    have h1 : i + e < tags.length := by omega
    rw [ih h1, take_succ_drop tags i e (by omega), List.map_append]
    simp only [List.map_cons, List.map_nil]
    have hne : (((tags.drop i).take (e + 1)).map (fun t => t.string)) ≠ [] := by
      intro hc
      have hlen := congrArg List.length hc
      simp only [List.length_map, List.length_take, List.length_drop, List.length_nil] at hlen
      omega
    rw [joinSp_append_single _ _ hne]

theorem chainE_stem (tags : List Tag) (i : ℕ) :
    ∀ e, i + e < tags.length →
    (∀ k, k ≤ e → (tagAt tags (i + k)).stem ≠ []) →
    (chainE tags i e).stem = joinSp (((tags.drop i).take (e + 1)).map (fun t => t.stem)) := by
  intro e
  induction e with
  | zero =>
    intro h hs
    have h0 : (tagAt tags i).stem ≠ [] := by simpa using hs 0 (Nat.le_refl 0)
    simp only [chainE, mtSeed]
    rw [if_neg h0, take_one_drop tags i (by omega)]
    rfl
  | succ e ih =>
    intro h hs
    rw [chainE]
    have h1 : i + e < tags.length := by omega
    have hstep : (mtExtend (tagAt tags (i + e + 1)) (chainE tags i e)).stem =
        (chainE tags i e).stem ++ ' ' :: (tagAt tags (i + e + 1)).stem := rfl
    rw [hstep, ih h1 (fun k hk => hs k (by omega))]
    rw [take_succ_drop tags i e (by omega), List.map_append]
    simp only [List.map_cons, List.map_nil]
    have hne : (((tags.drop i).take (e + 1)).map (fun t => t.stem)) ≠ [] := by
      intro hc
      have hlen := congrArg List.length hc
      simp only [List.length_map, List.length_take, List.length_drop, List.length_nil] at hlen
      omega
    rw [joinSp_append_single _ _ hne]

theorem chainE_rating_nonneg (tags : List Tag) (h : ∀ t ∈ tags, 0 ≤ t.rating)
    (i : ℕ) : ∀ e, 0 ≤ (chainE tags i e).rating := by
  have hAt : ∀ j, 0 ≤ (tagAt tags j).rating := by
    intro j
    rcases tagAt_mem_or tags j with hm | hd
    · exact h _ hm
    · rw [hd]; norm_num [dummyTag]
  intro e
  induction e with
  | zero => exact hAt i
  | succ e ih => exact mul_nonneg ih (hAt (i + e + 1))

/- ---------------- generation-loop characterization ---------------- -/

theorem genExt_nil (tags : List Tag) (i : ℕ) :
    ∀ (steps : ℕ) (t : MultiTag) (j : ℕ),
    ¬(i + j < tags.length ∧ t.terminal = false) → genExt tags i t j steps = [] := by
  intro steps
  induction steps with
  | zero => intro t j _; rfl
  | succ s ih =>
    intro t j h
    simp only [genExt]
    rw [if_neg h]
    apply ih
    intro hc
    exact h ⟨by omega, hc.2⟩

theorem genExt_sound (tags : List Tag) (i : ℕ) :
    ∀ (steps e : ℕ) (m : MultiTag), m ∈ genExt tags i (chainE tags i e) (e + 1) steps →
    ∃ e', e < e' ∧ e' ≤ e + steps ∧ i + e' + 1 ≤ tags.length ∧ m = chainE tags i e' ∧
      (∀ k, e ≤ k → k < e' → (tagAt tags (i + k)).terminal = false) := by
  intro steps
  induction steps with
  | zero => intro e m hm; exact absurd hm (by simp [genExt])
  | succ s ih =>
    intro e m hm
    by_cases hc : i + (e + 1) < tags.length ∧ (chainE tags i e).terminal = false
    · simp only [genExt] at hm
      rw [if_pos hc] at hm
      have hext : mtExtend (tagAt tags (i + (e + 1))) (chainE tags i e) = chainE tags i (e + 1) := rfl
      rw [hext] at hm
      rcases List.mem_cons.mp hm with h1 | h2
      · refine ⟨e + 1, by omega, by omega, by omega, h1, ?_⟩
        intro k hk1 hk2
        have hke : k = e := by omega
        subst hke
        rw [← chainE_terminal tags i k]
        exact hc.2
      · obtain ⟨e', h1, h2, h3, h4, h5⟩ := ih (e + 1) m h2
        refine ⟨e', by omega, by omega, h3, h4, ?_⟩
        intro k hk1 hk2
        by_cases hke : k = e
        · subst hke; rw [← chainE_terminal tags i k]; exact hc.2
        · exact h5 k (by omega) hk2
    · simp only [genExt] at hm
      rw [if_neg hc] at hm
      rw [genExt_nil tags i s (chainE tags i e) (e + 1 + 1)
        (fun h2c => hc ⟨by omega, h2c.2⟩)] at hm
      exact absurd hm (List.not_mem_nil m)

theorem genExt_complete (tags : List Tag) (i : ℕ) :
    ∀ (steps e e' : ℕ), e < e' → e' ≤ e + steps → i + e' + 1 ≤ tags.length →
    (∀ k, e ≤ k → k < e' → (tagAt tags (i + k)).terminal = false) →
    chainE tags i e' ∈ genExt tags i (chainE tags i e) (e + 1) steps := by
  intro steps
  induction steps with
  | zero => intro e e' h1 h2 _ _; exact False.elim (by omega)
  | succ s ih =>
    intro e e' h1 h2 h3 h4
    have hc : i + (e + 1) < tags.length ∧ (chainE tags i e).terminal = false := by
      refine ⟨by omega, ?_⟩
      rw [chainE_terminal]
      exact h4 e (Nat.le_refl e) h1
    simp only [genExt]
    rw [if_pos hc]
    have hext : mtExtend (tagAt tags (i + (e + 1))) (chainE tags i e) = chainE tags i (e + 1) := rfl
    rw [hext]
    by_cases he : e' = e + 1
    · subst he; exact List.mem_cons_self _ _
    · exact List.mem_cons_of_mem _
        (ih (e + 1) e' (by omega) (by omega) h3 (fun k hk1 hk2 => h4 k (by omega) hk2))

theorem mtSeed_chainE (tags : List Tag) (i : ℕ) : mtSeed (tagAt tags i) = chainE tags i 0 := rfl

theorem genAll_sound (tags : List Tag) (msize : ℕ) (m : MultiTag) (hm : m ∈ genAll tags msize) :
    ∃ i e, i + e + 1 ≤ tags.length ∧ (e = 0 ∨ e + 1 ≤ msize) ∧ m = chainE tags i e ∧
      ∀ k, k < e → (tagAt tags (i + k)).terminal = false := by
  rw [genAll] at hm
  obtain ⟨i, hi, hmi⟩ := List.mem_flatMap.mp hm
  rw [List.mem_range] at hi
  rw [genAt, mtSeed_chainE] at hmi
  rcases List.mem_cons.mp hmi with h1 | h2
  · exact ⟨i, 0, by omega, Or.inl rfl, h1, fun k hk => absurd hk (Nat.not_lt_zero k)⟩
  · obtain ⟨e', he'0, he'le, hlen, hme, hterm⟩ := genExt_sound tags i (msize - 1) 0 m h2
    exact ⟨i, e', hlen, Or.inr (by omega), hme, fun k hk => hterm k (Nat.zero_le k) hk⟩

theorem genAll_complete (tags : List Tag) (msize i e : ℕ)
    (h1 : i + e + 1 ≤ tags.length) (h2 : e = 0 ∨ e + 1 ≤ msize)
    (h3 : ∀ k, k < e → (tagAt tags (i + k)).terminal = false) :
    chainE tags i e ∈ genAll tags msize := by
  rw [genAll]
  apply List.mem_flatMap.mpr
  refine ⟨i, List.mem_range.mpr (by omega), ?_⟩
  rw [genAt, mtSeed_chainE]
  by_cases he : e = 0
  · subst he; exact List.mem_cons_self _ _
  · apply List.mem_cons_of_mem
    have hle : e + 1 ≤ msize := h2.resolve_left he
    exact genExt_complete tags i (msize - 1) 0 e (by omega) (by omega) h1
      (fun k _ hk => h3 k hk)

/- ---------------- split/join roundtrip ---------------- -/

theorem pySplitAux_append (w : Str) (hw : ∀ c ∈ w, c.isWhitespace = false) :
    ∀ (acc rest : Str), pySplitAux acc (w ++ rest) = pySplitAux (w.reverse ++ acc) rest := by
  induction w with
  | nil => intro acc rest; simp
  | cons c w' ih =>
    intro acc rest
    have hc : c.isWhitespace = false := hw c (List.mem_cons_self c w')
    have hw' : ∀ c' ∈ w', c'.isWhitespace = false := fun c' h' => hw c' (List.mem_cons_of_mem c h')
    rw [List.cons_append]
    show (if c.isWhitespace then _ else pySplitAux (c :: acc) (w' ++ rest)) = _
    rw [hc]
    simp only [Bool.false_eq_true, if_false]
    rw [ih hw' (c :: acc) rest]
    congr 1
    simp

theorem pySplit_joinSp : ∀ (ss : List Str),
    (∀ s ∈ ss, s ≠ [] ∧ ∀ c ∈ s, c.isWhitespace = false) →
    pySplit (joinSp ss) = ss := by
  intro ss
  induction ss with
  | nil => intro _; rfl
  | cons s rest ih =>
    intro h
    obtain ⟨hs, hsw⟩ := h s (List.mem_cons_self s rest)
    cases rest with
    | nil =>
      show pySplitAux [] (joinSp [s]) = [s]
      have hJ : joinSp [s] = s ++ [] := by simp [joinSp]
      rw [hJ, pySplitAux_append s hsw [] []]
      simp only [pySplitAux, List.append_nil]
      rw [if_neg (by simp [hs]), List.reverse_reverse]
    | cons t rest' =>
      have hrest : ∀ x ∈ t :: rest', x ≠ [] ∧ ∀ c ∈ x, c.isWhitespace = false :=
        fun x hx => h x (List.mem_cons_of_mem s hx)
      have hrec : pySplitAux [] (joinSp (t :: rest')) = t :: rest' := by
        have := ih hrest
        rwa [pySplit] at this
      have hjoin : joinSp (s :: t :: rest') = s ++ ' ' :: joinSp (t :: rest') := rfl
      show pySplitAux [] (joinSp (s :: t :: rest')) = s :: t :: rest'
      rw [hjoin, pySplitAux_append s hsw [] (' ' :: joinSp (t :: rest'))]
      simp only [pySplitAux, List.append_nil, show (' ').isWhitespace = true from rfl, if_true]
      rw [if_neg (by simp [hs]), List.reverse_reverse, hrec]

/- ---------------- filter-pass lemmas ---------------- -/

theorem innerStep_subset (cnt : Str → ℕ) (t : MultiTag) (ws : List Str) (i : ℕ)
    (u : List MultiTag) (j : ℕ) (u' : List MultiTag)
    (h : innerStep cnt t ws i u j = .ok u') : ∀ x ∈ u', x ∈ u := by
  intro x hx
  rw [innerStep] at h
  split at h
  · cases h
  · split at h
    · injection h with h2
      subst h2
      exact ((mem_discardStem _ _ _).mp hx).1
    · injection h with h2
      subst h2
      exact ((mem_discardStem _ _ _).mp hx).1

theorem filterOne_subset (cnt : Str → ℕ) (t : MultiTag) (u v : List MultiTag)
    (h : filterOne cnt t u = .ok v) : ∀ x ∈ v, x ∈ u := by
  rw [filterOne] at h
  split at h
  · injection h with h2
    subst h2
    exact fun x hx => ((mem_discardStem _ _ _).mp hx).1
  · refine foldME_mono _ _ ?_ u v h
    intro u1 i u2 h12
    refine foldME_mono _ _ ?_ u1 u2 h12
    intro u3 j u4 h34
    exact innerStep_subset cnt t _ i u3 j u4 h34

theorem filterPass_subset (cnt : Str → ℕ) (pool : List MultiTag) (u v : List MultiTag)
    (h : filterPass cnt pool u = .ok v) : ∀ x ∈ v, x ∈ u :=
  foldME_mono _ pool (fun u1 t u2 h12 => filterOne_subset cnt t u1 u2 h12) u v h

theorem filterOne_short_stem (cnt : Str → ℕ) (t : MultiTag) (u v : List MultiTag)
    (h : filterOne cnt t u = .ok v) (hshort : t.string.length < 2) :
    ∀ x ∈ v, x.stem ≠ t.stem := by
  rw [filterOne, if_pos hshort] at h
  injection h with h2
  subst h2
  exact fun x hx => ((mem_discardStem _ _ _).mp hx).2

theorem filterPass_no_short (cnt : Str → ℕ) :
    ∀ (pool : List MultiTag) (u v : List MultiTag), filterPass cnt pool u = .ok v →
    ∀ x ∈ v, ∀ t ∈ pool, t.string.length < 2 → x.stem ≠ t.stem := by
  intro pool
  induction pool with
  | nil => intro u v _ x _ t ht; exact absurd ht (List.not_mem_nil t)
  | cons t0 rest ih =>
    intro u v h x hx t ht hshort
    rw [filterPass, foldME_cons] at h
    cases hs : filterOne cnt t0 u with
    | error e => rw [hs] at h; cases h
    | ok u1 =>
      rw [hs] at h
      rcases List.mem_cons.mp ht with h1 | h2
      · subst h1
        have hxu1 : x ∈ u1 := filterPass_subset cnt rest u1 v h x hx
        exact filterOne_short_stem cnt t u u1 hs hshort x hxu1
      · exact ih u1 v h x hx t h2 hshort

theorem mtCount_pos (pool : List MultiTag) (x : MultiTag) (hx : x ∈ pool)
    (s : Str) (hs : x.stem = s) : 0 < mtCount pool s := by
  rw [mtCount]
  have hmem : x ∈ pool.filter (fun m => m.stem = s) :=
    List.mem_filter.mpr ⟨hx, by simp [hs]⟩
  exact List.length_pos_of_mem hmem

theorem filterOne_ok (cnt : Str → ℕ) (t : MultiTag) (u : List MultiTag)
    (h : ∀ a ∈ List.range (pySplit t.stem).length,
      ∀ j ∈ List.range' 1 ((pySplit t.stem).length - 1),
      cnt (probeStem (pySplit t.stem) a j) ≠ 0) :
    ∃ v, filterOne cnt t u = .ok v := by
  rw [filterOne]
  split
  · exact ⟨_, rfl⟩
  · apply foldME_ok
    intro u1 a ha
    apply foldME_ok
    intro u2 j hj
    rw [innerStep, if_neg (h a ha j hj)]
    split
    · exact ⟨_, rfl⟩
    · exact ⟨_, rfl⟩

/- ---------------- sort lemmas ---------------- -/

theorem mem_insertLe (le : MultiTag → MultiTag → Bool) (x : MultiTag) :
    ∀ (l : List MultiTag) (y : MultiTag), y ∈ insertLe le x l ↔ y = x ∨ y ∈ l := by
  intro l
  induction l with
  | nil => intro y; simp [insertLe]
  | cons z zs ih =>
    intro y
    rw [insertLe]
    cases hle : le x z with
    | true =>
      simp only [if_true, List.mem_cons]
    | false =>
      simp only [Bool.false_eq_true, if_false, List.mem_cons, ih y]
      tauto

theorem mem_sortLe (le : MultiTag → MultiTag → Bool) :
    ∀ (l : List MultiTag) (y : MultiTag), y ∈ sortLe le l ↔ y ∈ l := by
  intro l
  induction l with
  | nil => intro y; rfl
  | cons x xs ih =>
    intro y
    rw [sortLe, mem_insertLe, ih, List.mem_cons]

/- ---------------- rated tags ---------------- -/

/-- The functional content of one iteration of the rating loop: rating
becomes `count(stem)/len(tags) * weight(stem)`. -/
def rateTag (w : Str → ℚ) (orig : List Tag) (t : Tag) : Tag :=
  { t with rating := (termCount orig t.stem : ℚ) / (orig.length : ℚ) * w t.stem }

theorem rateLoop_some (w : Str → ℚ) (orig : List Tag) :
    ∀ ts, rateLoop (some w) orig ts = .ok (ts.map (rateTag w orig)) := by
  intro ts
  induction ts with
  | nil => rfl
  | cons t rest ih =>
    show (match rateLoop (some w) orig rest with
          | .error e => Except.error e
          | .ok rest' => .ok (rateTag w orig t :: rest')) = _
    rw [ih]
    rfl

theorem raterCall_some (w : Str → ℚ) (msize : ℕ) (tags0 : List Tag) :
    raterCall (some w) msize tags0 =
      (match filterPass (mtCount (genAll (tags0.map (rateTag w tags0)) msize))
          (genAll (tags0.map (rateTag w tags0)) msize)
          (dedupAux [] (genAll (tags0.map (rateTag w tags0)) msize)) with
      | .error e => .error e
      | .ok v => .ok (pySorted v)) := by
  rw [raterCall, rateLoop_some]

/- ---------------- sub-window machinery ---------------- -/

theorem tagAt_mem (tags : List Tag) (i : ℕ) (h : i < tags.length) : tagAt tags i ∈ tags := by
  rw [tagAt, List.getD_eq_getElem tags dummyTag h]
  exact List.getElem_mem h

/-- The stems of the contiguous run of `n` tags starting at position `i`. -/
def runStems (tags : List Tag) (i n : ℕ) : List Str :=
  ((tags.drop i).take n).map (fun t => t.stem)

theorem length_runStems (tags : List Tag) (i n : ℕ) (h : i + n ≤ tags.length) :
    (runStems tags i n).length = n := by
  simp only [runStems, List.length_map, List.length_take, List.length_drop]
  omega

theorem mem_runStems (tags : List Tag) (i n : ℕ) :
    ∀ s ∈ runStems tags i n, ∃ t ∈ tags, s = t.stem := by
  intro s hs
  simp only [runStems, List.mem_map] at hs
  obtain ⟨t, ht, rfl⟩ := hs
  exact ⟨t, List.mem_of_mem_drop (List.mem_of_mem_take ht), rfl⟩

theorem window_slice (tags : List Tag) (i n a j : ℕ) :
    ((runStems tags i n).drop a).take j = runStems tags (i + a) (min j (n - a)) := by
  rw [runStems, runStems, ← List.map_drop, ← List.map_take]
  congr 1
  rw [List.drop_take, List.drop_drop, List.take_take]

theorem chainE_stem_run (tags : List Tag) (i e : ℕ) (h : i + e < tags.length)
    (hs : ∀ k, k ≤ e → (tagAt tags (i + k)).stem ≠ []) :
    (chainE tags i e).stem = joinSp (runStems tags i (e + 1)) :=
  chainE_stem tags i e h hs

theorem pool_window_nonzero (tags : List Tag) (msize : ℕ)
    (hst : ∀ t ∈ tags, t.stem ≠ [] ∧ ∀ c ∈ t.stem, c.isWhitespace = false) :
    ∀ t ∈ genAll tags msize,
    ∀ a ∈ List.range (pySplit t.stem).length,
    ∀ j ∈ List.range' 1 ((pySplit t.stem).length - 1),
    mtCount (genAll tags msize) (probeStem (pySplit t.stem) a j) ≠ 0 := by
  intro t ht a ha j hj
  obtain ⟨i, e, hlen, hsz, hte, hterm⟩ := genAll_sound tags msize t ht
  have hstemAt : ∀ k, k ≤ e → (tagAt tags (i + k)).stem ≠ [] := by
    intro k hk
    exact (hst (tagAt tags (i + k)) (tagAt_mem tags (i + k) (by omega))).1
  have hrun : ∀ s ∈ runStems tags i (e + 1), s ≠ [] ∧ ∀ c ∈ s, c.isWhitespace = false := by
    intro s hs
    obtain ⟨tg, htg, rfl⟩ := mem_runStems tags i (e + 1) s hs
    exact hst tg htg
  have hstem : t.stem = joinSp (runStems tags i (e + 1)) := by
    rw [hte]
    exact chainE_stem_run tags i e (by omega) hstemAt
  have hsplit : pySplit t.stem = runStems tags i (e + 1) := by
    rw [hstem]
    exact pySplit_joinSp _ hrun
  have hwslen : (pySplit t.stem).length = e + 1 := by
    rw [hsplit]
    exact length_runStems tags i (e + 1) (by omega)
  rw [List.mem_range, hwslen] at ha
  rw [List.mem_range'_1, hwslen] at hj
  have hjle : 1 ≤ j ∧ j < 1 + e := by
    refine ⟨hj.1, ?_⟩
    have := hj.2
    omega
  have he1 : 1 ≤ e := by omega
  set l := min j (e + 1 - a) with hl
  have hl1 : 1 ≤ l := by omega
  have hlle : l ≤ e := by omega
  have hprobe : probeStem (pySplit t.stem) a j = joinSp (runStems tags (i + a) l) := by
    rw [probeStem, hsplit, window_slice]
  have hchain : chainE tags (i + a) (l - 1) ∈ genAll tags msize := by
    apply genAll_complete
    · omega
    · rcases hsz with h0 | h0
      · omega
      · right
        omega
    · intro k hk
      have hidx : i + a + k = i + (a + k) := Nat.add_assoc i a k
      rw [hidx]
      exact hterm (a + k) (by omega)
  have hl11 : l - 1 + 1 = l := by omega
  have hcstem : (chainE tags (i + a) (l - 1)).stem = probeStem (pySplit t.stem) a j := by
    rw [hprobe]
    have hs2 : ∀ k, k ≤ l - 1 → (tagAt tags (i + a + k)).stem ≠ [] := by
      intro k hk
      have hidx : i + a + k = i + (a + k) := Nat.add_assoc i a k
      rw [hidx]
      exact hstemAt (a + k) (by omega)
    have := chainE_stem_run tags (i + a) (l - 1) (by omega) hs2
    rw [this, hl11]
  have hpos := mtCount_pos (genAll tags msize) _ hchain _ hcstem
  omega

/-- On any input whose stems are nonempty and whitespace-free (as the
Reader/Stemmer stage produces), the rater never raises: every probed
sub-window stem is itself a generated candidate, so its count is ≥ 1. -/
theorem raterCall_some_ok (w : Str → ℚ) (msize : ℕ) (tags0 : List Tag)
    (hst : ∀ t ∈ tags0, t.stem ≠ [] ∧ ∀ c ∈ t.stem, c.isWhitespace = false) :
    ∃ res, raterCall (some w) msize tags0 = .ok res := by
  rw [raterCall_some]
  have hst' : ∀ t ∈ tags0.map (rateTag w tags0),
      t.stem ≠ [] ∧ ∀ c ∈ t.stem, c.isWhitespace = false := by
    intro t ht
    obtain ⟨t0, ht0, rfl⟩ := List.mem_map.mp ht
    exact hst t0 ht0
  have hok : ∃ v, filterPass (mtCount (genAll (tags0.map (rateTag w tags0)) msize))
      (genAll (tags0.map (rateTag w tags0)) msize)
      (dedupAux [] (genAll (tags0.map (rateTag w tags0)) msize)) = .ok v := by
    unfold filterPass
    apply foldME_ok
    intro u t ht
    exact filterOne_ok _ t u
      (fun a ha j hj => pool_window_nonzero _ msize hst' t ht a ha j hj)
  obtain ⟨v, hv⟩ := hok
  refine ⟨pySorted v, ?_⟩
  rw [hv]

/- ---------------- ordering lemmas ---------------- -/

theorem mtLeB_eq (a b : MultiTag) :
    (mtLeB a b = true) ↔ b.rating ^ a.size ≤ a.rating ^ b.size := by
  rw [mtLeB, Bool.not_eq_true', mtLtB, decide_eq_false_iff_not, not_lt]

theorem mtLeB_total (a b : MultiTag) : mtLeB a b = true ∨ mtLeB b a = true := by
  rw [mtLeB_eq, mtLeB_eq]
  exact le_total _ _

theorem leQ_trans (a b c : MultiTag) (ha : 0 ≤ a.rating) (hb : 0 ≤ b.rating)
    (hc : 0 ≤ c.rating) (hsb : 1 ≤ b.size)
    (h1 : b.rating ^ a.size ≤ a.rating ^ b.size)
    (h2 : c.rating ^ b.size ≤ b.rating ^ c.size) :
    c.rating ^ a.size ≤ a.rating ^ c.size := by
  have e1 : b.rating ^ (a.size * c.size) ≤ a.rating ^ (b.size * c.size) := by
    rw [pow_mul, pow_mul]
    exact pow_le_pow_left₀ (pow_nonneg hb a.size) h1 c.size
  have e2 : c.rating ^ (b.size * a.size) ≤ b.rating ^ (c.size * a.size) := by
    rw [pow_mul, pow_mul]
    exact pow_le_pow_left₀ (pow_nonneg hc b.size) h2 a.size
  have e3 : c.rating ^ (b.size * a.size) ≤ a.rating ^ (b.size * c.size) := by
    refine le_trans e2 ?_
    rw [mul_comm c.size a.size]
    exact e1
  have e4 : (c.rating ^ a.size) ^ b.size ≤ (a.rating ^ c.size) ^ b.size := by
    rw [← pow_mul, ← pow_mul]
    calc c.rating ^ (a.size * b.size) = c.rating ^ (b.size * a.size) := by rw [mul_comm]
      _ ≤ a.rating ^ (b.size * c.size) := e3
      _ = a.rating ^ (c.size * b.size) := by rw [mul_comm]
  exact (pow_le_pow_iff_left₀ (pow_nonneg hc a.size) (pow_nonneg ha c.size) (by omega)).mp e4

theorem effRating_le_iff (q1 q2 : ℚ) (s1 s2 : ℕ) (hq1 : 0 ≤ q1) (hq2 : 0 ≤ q2)
    (hs1 : 1 ≤ s1) (hs2 : 1 ≤ s2) :
    ((q2 : ℝ) ^ (1 / (s2 : ℝ)) ≤ (q1 : ℝ) ^ (1 / (s1 : ℝ))) ↔ q2 ^ s1 ≤ q1 ^ s2 := by
  have hx : (0 : ℝ) ≤ (q2 : ℝ) := by exact_mod_cast hq2
  have hy : (0 : ℝ) ≤ (q1 : ℝ) := by exact_mod_cast hq1
  have key : ∀ (x : ℝ), 0 ≤ x → ∀ (a b : ℕ), a ≠ 0 →
      (x ^ (1 / (a : ℝ))) ^ (a * b) = x ^ b := by
    intro x hx0 a b hha
    rw [← Real.rpow_natCast (x ^ (1 / (a : ℝ))) (a * b), ← Real.rpow_mul hx0,
      ← Real.rpow_natCast x b]
    congr 1
    have haR : (a : ℝ) ≠ 0 := Nat.cast_ne_zero.mpr hha
    push_cast
    field_simp
  constructor
  · intro h
    have hpow := pow_le_pow_left₀ (Real.rpow_nonneg hx _) h (s1 * s2)
    rw [key (q1 : ℝ) hy s1 s2 (by omega)] at hpow
    rw [mul_comm s1 s2, key (q2 : ℝ) hx s2 s1 (by omega)] at hpow
    exact_mod_cast hpow
  · intro h
    have hR : ((q2 : ℝ)) ^ s1 ≤ ((q1 : ℝ)) ^ s2 := by exact_mod_cast h
    have hpow : ((q2 : ℝ) ^ (1 / (s2 : ℝ))) ^ (s1 * s2) ≤
        ((q1 : ℝ) ^ (1 / (s1 : ℝ))) ^ (s1 * s2) := by
      rw [key (q1 : ℝ) hy s1 s2 (by omega)]
      rw [mul_comm s1 s2, key (q2 : ℝ) hx s2 s1 (by omega)]
      exact hR
    exact (pow_le_pow_iff_left₀ (Real.rpow_nonneg hx _) (Real.rpow_nonneg hy _)
      (Nat.mul_ne_zero (by omega) (by omega))).mp hpow

theorem mtLeB_iff_not_mtLt (a b : MultiTag) (ha : 0 ≤ a.rating) (hb : 0 ≤ b.rating)
    (hsa : 1 ≤ a.size) (hsb : 1 ≤ b.size) :
    (mtLeB a b = true) ↔ ¬ mtLt b a := by
  rw [mtLeB_eq, mtLt, not_lt]
  exact (effRating_le_iff a.rating b.rating a.size b.size ha hb hsa hsb).symm

theorem pairwise_insertLe (le : MultiTag → MultiTag → Bool) (P : MultiTag → Prop)
    (htrans : ∀ a b c, P a → P b → P c → le a b = true → le b c = true → le a c = true)
    (htot : ∀ a b, P a → P b → le a b = true ∨ le b a = true)
    (x : MultiTag) (hPx : P x) :
    ∀ (l : List MultiTag), (∀ y ∈ l, P y) →
    l.Pairwise (fun a b => le a b = true) →
    (insertLe le x l).Pairwise (fun a b => le a b = true) := by
  intro l
  induction l with
  | nil => intro _ _; simp [insertLe]
  | cons y ys ih =>
    intro hPl hl
    rw [insertLe]
    have hPy := hPl y (List.mem_cons_self y ys)
    have hPys : ∀ z ∈ ys, P z := fun z hz => hPl z (List.mem_cons_of_mem y hz)
    obtain ⟨hy_all, hys⟩ := List.pairwise_cons.mp hl
    cases hle : le x y with
    | true =>
      apply List.pairwise_cons.mpr
      refine ⟨?_, hl⟩
      intro z hz
      rcases List.mem_cons.mp hz with rfl | hz'
      · exact hle
      · exact htrans x y z hPx hPy (hPys z hz') hle (hy_all z hz')
    | false =>
      have hyx : le y x = true := by
        rcases htot x y hPx hPy with h1 | h1
        · rw [h1] at hle; cases hle
        · exact h1
      apply List.pairwise_cons.mpr
      constructor
      · intro z hz
        rcases (mem_insertLe le x ys z).mp hz with rfl | hz'
        · exact hyx
        · exact hy_all z hz'
      · exact ih hPys hys

theorem pairwise_sortLe (le : MultiTag → MultiTag → Bool) (P : MultiTag → Prop)
    (htrans : ∀ a b c, P a → P b → P c → le a b = true → le b c = true → le a c = true)
    (htot : ∀ a b, P a → P b → le a b = true ∨ le b a = true) :
    ∀ (l : List MultiTag), (∀ x ∈ l, P x) →
    (sortLe le l).Pairwise (fun a b => le a b = true) := by
  intro l
  induction l with
  | nil => intro _; exact List.Pairwise.nil
  | cons x xs ih =>
    intro hP
    rw [sortLe]
    exact pairwise_insertLe le P htrans htot x (hP x (List.mem_cons_self x xs))
      (sortLe le xs)
      (fun y hy => hP y (List.mem_cons_of_mem x ((mem_sortLe le xs y).mp hy)))
      (ih (fun y hy => hP y (List.mem_cons_of_mem x hy)))

/- ---------------- pool element properties ---------------- -/

theorem pool_size_pos (tags : List Tag) (msize : ℕ) :
    ∀ m ∈ genAll tags msize, 1 ≤ m.size := by
  intro m hm
  obtain ⟨i, e, _, _, rfl, _⟩ := genAll_sound tags msize m hm
  rw [chainE_size]
  omega

theorem pool_rating_nonneg (tags : List Tag) (msize : ℕ)
    (h : ∀ t ∈ tags, 0 ≤ t.rating) :
    ∀ m ∈ genAll tags msize, 0 ≤ m.rating := by
  intro m hm
  obtain ⟨i, e, _, _, rfl, _⟩ := genAll_sound tags msize m hm
  exact chainE_rating_nonneg tags h i e

theorem rated_rating_nonneg (w : Str → ℚ) (hw : ∀ s, 0 ≤ w s) (tags0 : List Tag) :
    ∀ t ∈ tags0.map (rateTag w tags0), 0 ≤ t.rating := by
  intro t ht
  obtain ⟨t0, _, rfl⟩ := List.mem_map.mp ht
  exact mul_nonneg (div_nonneg (Nat.cast_nonneg _) (Nat.cast_nonneg _)) (hw _)

/-- Every successful run of the rater returns a list that is pairwise
non-increasing in effective (geometric-mean) rating, provided the weight
table is nonnegative as its contract requires. -/
theorem raterOk_pairwise (w : Str → ℚ) (hw : ∀ s, 0 ≤ w s) (msize : ℕ)
    (tags0 : List Tag) (res : List MultiTag)
    (hres : raterCall (some w) msize tags0 = .ok res) :
    res.Pairwise (fun a b => ¬ mtLt b a) := by
  rw [raterCall_some] at hres
  cases hf : filterPass (mtCount (genAll (tags0.map (rateTag w tags0)) msize))
      (genAll (tags0.map (rateTag w tags0)) msize)
      (dedupAux [] (genAll (tags0.map (rateTag w tags0)) msize)) with
  | error e => rw [hf] at hres; cases hres
  | ok v =>
    rw [hf] at hres
    injection hres with hres2
    subst hres2
    have hvP : ∀ x ∈ v, 0 ≤ x.rating ∧ 1 ≤ x.size := by
      intro x hx
      have hxu := filterPass_subset _ _ _ _ hf x hx
      have hxp := mem_dedupAux x [] _ hxu
      exact ⟨pool_rating_nonneg _ msize (rated_rating_nonneg w hw tags0) x hxp,
        pool_size_pos _ msize x hxp⟩
    have hpw := pairwise_sortLe mtLeB (fun m => 0 ≤ m.rating ∧ 1 ≤ m.size)
      (fun a b c hPa hPb hPc hab hbc => by
        rw [mtLeB_eq] at hab hbc ⊢
        exact leQ_trans a b c hPa.1 hPb.1 hPc.1 hPb.2 hab hbc)
      (fun a b _ _ => mtLeB_total a b) v hvP
    rw [pySorted]
    refine List.Pairwise.imp_of_mem ?_ hpw
    intro a b hamem hbmem hab
    have hPa := hvP a ((mem_sortLe mtLeB v a).mp hamem)
    have hPb := hvP b ((mem_sortLe mtLeB v b).mp hbmem)
    exact (mtLeB_iff_not_mtLt a b hPa.1 hPb.1 hPa.2 hPb.2).mp hab

theorem raterCall_ok_decomp (g : Option (Str → ℚ)) (msize : ℕ) (tags0 : List Tag)
    (res : List MultiTag) (h : raterCall g msize tags0 = .ok res) :
    ∃ tags, rateLoop g tags0 tags0 = .ok tags ∧
      ∃ v, filterPass (mtCount (genAll tags msize)) (genAll tags msize)
          (dedupAux [] (genAll tags msize)) = .ok v ∧ res = pySorted v := by
  unfold raterCall at h
  cases hr : rateLoop g tags0 tags0 with
  | error e => rw [hr] at h; cases h
  | ok tags =>
    rw [hr] at h
    simp only [] at h
    cases hf : filterPass (mtCount (genAll tags msize)) (genAll tags msize)
        (dedupAux [] (genAll tags msize)) with
    | error e => rw [hf] at h; cases h
    | ok v =>
      rw [hf] at h
      simp only [] at h
      injection h with h2
      exact ⟨tags, rfl, v, hf, h2.symm⟩

theorem foldME_flatMap {α β : Type} (step : List MultiTag → β → Except PyErr (List MultiTag))
    (f : α → List β) : ∀ (l : List α) (u : List MultiTag),
    foldME step u (l.flatMap f) = foldME (fun u' a => foldME step u' (f a)) u l := by
  intro l
  induction l with
  | nil => intro u; rfl
  | cons a l ih =>
    intro u
    rw [List.flatMap_cons, foldME_append, foldME_cons]
    cases foldME step u (f a) with
    | error e => rfl
    | ok u' => exact ih u'

theorem foldME_map {α β : Type} (step : List MultiTag → β → Except PyErr (List MultiTag))
    (g : α → β) : ∀ (l : List α) (u : List MultiTag),
    foldME step u (l.map g) = foldME (fun u' a => step u' (g a)) u l := by
  intro l
  induction l with
  | nil => intro u; rfl
  | cons a l ih =>
    intro u
    rw [List.map_cons, foldME_cons, foldME_cons]
    cases step u (g a) with
    | error e => rfl
    | ok u' => exact ih u'

/- ---------------- concrete demo values ---------------- -/

def tagAA : Tag := { string := strL ("aa"), stem := strL ("aa"), rating := 1, terminal := false }

def tagBB : Tag := { string := strL ("bb"), stem := strL ("bb"), rating := 1, terminal := true }

/- ---------------- claims ---------------- -/

/-- Claim C1 (code bug in the source): the unit rating is supposed to be
`(count_of_stem / total) * weight(stem)` with `weight` the table given to
the Rater at construction, but `Rater.__call__` reads the bare name
`weights`, i.e. the module global, not `self.weights`.  With the global
unset the very first rating iteration raises NameError; with the global
bound to the all-ones table the produced rating is `(1/1) * 1 = 1` for
every stored table `ws`, which differs from the claimed
`(1/1) * ws("aa")` when for instance `ws` is constantly `5`. -/
theorem C1_rater_reads_global_weights :
    (raterMethod { weights := fun _ => 5, multitag_size := 3 } none [tagAA]
      = .error .nameError) ∧
    (∀ ws : Str → ℚ, raterMethod { weights := ws, multitag_size := 3 }
      (some (fun _ => 1)) [tagAA]
      = .ok [{ string := strL ("aa"), stem := strL ("aa"), rating := 1, size := 1,
               terminal := false }]) ∧
    ((1 : ℚ) ≠ (termCount [tagAA] tagAA.stem : ℚ) / (([tagAA] : List Tag).length : ℚ) * 5) := by
  refine ⟨rfl, fun ws => ?_, ?_⟩
  · with_unfolding_all rfl
  · with_unfolding_all decide

/-- Claim C2: every MultiTag generated by the multitag-generation loop is
the chain built from a contiguous run of input tags, and all its
constituents except the last are non-terminal (extension stops at a
terminal chain, and a chain's terminal flag is its last constituent's). -/
theorem C2_terminal_boundary (tags : List Tag) (msize : ℕ) (m : MultiTag)
    (hm : m ∈ genAll tags msize) (_hsz : 1 < m.size) :
    ∃ i e, m = chainE tags i e ∧ m.size = e + 1 ∧ i + e + 1 ≤ tags.length ∧
      ∀ k, k < e → (tagAt tags (i + k)).terminal = false := by
  obtain ⟨i, e, hlen, _, hme, hterm⟩ := genAll_sound tags msize m hm
  exact ⟨i, e, hme, by rw [hme, chainE_size], hlen, hterm⟩

theorem C2_terminal_boundary_witness :
    ∃ i e, chainE [tagAA, tagBB] 0 1 = chainE [tagAA, tagBB] i e ∧
      (chainE [tagAA, tagBB] 0 1).size = e + 1 ∧
      i + e + 1 ≤ ([tagAA, tagBB] : List Tag).length ∧
      ∀ k, k < e → (tagAt [tagAA, tagBB] (i + k)).terminal = false :=
  C2_terminal_boundary [tagAA, tagBB] 3 (chainE [tagAA, tagBB] 0 1)
    (by with_unfolding_all decide) (by with_unfolding_all decide)

/-- Claim C3 counterexample: the sub-phrase frequency-ratio computation has
no explicit zero-guard and it can crash: a single input tag whose stem
contains a space (legal for the Rater, which accepts arbitrary tag lists)
makes the probed sub-window "a" a stem that was never generated as a
candidate, and the division raises ZeroDivisionError. -/
theorem C3_zero_division_cex :
    raterCall (some (fun _ => (1 : ℚ))) 3 [⟨strL ("xy"), strL ("a b"), 1, false⟩]
      = .error .zeroDivision := rfl

/-- Claim C3 amended: there is no explicit guard in the implementation, but
for every input sequence whose stems are nonempty and whitespace-free (what
the Reader/Stemmer stage actually produces) the filtering pass never
divides by zero and the call never raises, because every probed contiguous
sub-window of a candidate's stem is itself a generated candidate, so its
count in the pool is at least 1. -/
theorem C3_no_crash_on_wordlike_stems (w : Str → ℚ) (msize : ℕ) (tags0 : List Tag)
    (hst : ∀ t ∈ tags0, t.stem ≠ [] ∧ ∀ c ∈ t.stem, c.isWhitespace = false) :
    ∃ res, raterCall (some w) msize tags0 = .ok res :=
  raterCall_some_ok w msize tags0 hst

theorem C3_no_crash_witness :
    ∃ res, raterCall (some (fun _ => (1 : ℚ))) 3 [tagAA, tagBB] = .ok res :=
  C3_no_crash_on_wordlike_stems (fun _ => 1) 3 [tagAA, tagBB] (by decide)

/-- Claim C4: the filtering pass examines, for each candidate `t` (with a
surface of at least 2 characters), every pair `(i, j)` with
`i < len(words)` and `1 ≤ j < len(words)` over the words of `t.stem`; for
each it computes `relative_freq = count(t) / count(subtag)` over the
candidate-pool frequency table and discards the sub-phrase when
`relative_freq ≥ 0.5` and `t.rating > 0`, otherwise discards the candidate
itself (a zero sub-window count raises instead, cf. C3). -/
theorem C4_redundancy_branch (pool : List MultiTag) (t : MultiTag) (u : List MultiTag) :
    filterOne (mtCount pool) t u =
      if t.string.length < 2 then .ok (discardStem t.stem u)
      else
        foldME
          (fun u' ij =>
            if mtCount pool (probeStem (pySplit t.stem) ij.1 ij.2) = 0 then
              .error .zeroDivision
            else if (1 : ℚ) / 2 ≤ (mtCount pool t.stem : ℚ) /
                (mtCount pool (probeStem (pySplit t.stem) ij.1 ij.2) : ℚ) ∧
                0 < t.rating then
              .ok (discardStem (probeStem (pySplit t.stem) ij.1 ij.2) u')
            else .ok (discardStem t.stem u'))
          u
          ((List.range (pySplit t.stem).length).flatMap
            (fun i => (List.range' 1 ((pySplit t.stem).length - 1)).map (fun j => (i, j)))) := by
  rw [filterOne]
  split
  · rfl
  · rw [foldME_flatMap]
    simp only [foldME_map]
    rfl

/-- Claim C5: Tag ordering is descending by rating (`a < b` iff
`a.rating > b.rating`); MultiTag ordering compares `rating ** (1/size)`
(the geometric mean of the constituent ratings); and, provided the weight
table is nonnegative as its contract requires, every successful rater
output is sorted in this descending effective-rating order. -/
theorem C5_ordering_contract (w : Str → ℚ) (hw : ∀ s, 0 ≤ w s) (msize : ℕ)
    (tags0 : List Tag) (res : List MultiTag)
    (hres : raterCall (some w) msize tags0 = .ok res) :
    (∀ a b : Tag, b.rating < a.rating → tagLt a b) ∧
    (∀ a b : MultiTag, mtLt a b ↔
      (b.rating : ℝ) ^ (1 / (b.size : ℝ)) < (a.rating : ℝ) ^ (1 / (a.size : ℝ))) ∧
    res.Pairwise (fun a b => ¬ mtLt b a) :=
  ⟨fun _ _ h => h, fun _ _ => Iff.rfl, raterOk_pairwise w hw msize tags0 res hres⟩

theorem C5_ordering_contract_witness :
    (∀ a b : Tag, b.rating < a.rating → tagLt a b) ∧
    (∀ a b : MultiTag, mtLt a b ↔
      (b.rating : ℝ) ^ (1 / (b.size : ℝ)) < (a.rating : ℝ) ^ (1 / (a.size : ℝ))) ∧
    ([{ string := strL ("aa"), stem := strL ("aa"), rating := 1, size := 1,
        terminal := false }] : List MultiTag).Pairwise (fun a b => ¬ mtLt b a) :=
  C5_ordering_contract (fun _ => 1) (fun _ => zero_le_one) 3 [tagAA]
    [{ string := strL ("aa"), stem := strL ("aa"), rating := 1, size := 1,
       terminal := false }] (by with_unfolding_all rfl)

/-- Claim C6 counterexample: seeding a MultiTag from a Tag with an empty
stem does not copy the stem — `Tag.__init__`'s `stem or string` fallback
replaces it by the surface. -/
theorem C6_seed_stem_fallback_cex :
    (mtSeed ⟨strL ("xy"), [], 1, false⟩).stem ≠ (⟨strL ("xy"), [], 1, false⟩ : Tag).stem := by
  decide

/-- Claim C6 amended: extension concatenates surfaces and stems with a
space, multiplies ratings, increments size and takes the tail's terminal
flag; seeding yields a size-1 MultiTag copying surface, rating and
terminal, and copies the stem whenever it is nonempty (an empty stem falls
back to the surface). -/
theorem C6_multitag_construction :
    (∀ (head : MultiTag) (tail : Tag), mtExtend tail head =
      { string := head.string ++ ' ' :: tail.string,
        stem := head.stem ++ ' ' :: tail.stem,
        rating := head.rating * tail.rating,
        size := head.size + 1, terminal := tail.terminal }) ∧
    (∀ t : Tag, t.stem ≠ [] → mtSeed t =
      { string := t.string, stem := t.stem, rating := t.rating, size := 1,
        terminal := t.terminal }) := by
  refine ⟨fun head tail => rfl, fun t ht => ?_⟩
  rw [mtSeed, if_neg ht]

theorem C6_multitag_construction_witness :
    mtSeed tagAA =
      { string := tagAA.string, stem := tagAA.stem, rating := tagAA.rating,
        size := 1, terminal := tagAA.terminal } :=
  C6_multitag_construction.2 tagAA (by decide)

def mtAAt : MultiTag :=
  { string := strL ("aa"), stem := strL ("aa"), rating := 1, size := 1, terminal := true }

def mtAABB : MultiTag :=
  { string := strL ("aa bb"), stem := strL ("aa bb"), rating := 1/16, size := 2,
    terminal := true }

/-- Claim C7 counterexample: `tags[:tags_number]` with a negative count is
Python slicing — it drops elements from the end instead of returning the
empty sequence.  On this text two phrases survive, so `n = -1` returns one
element, not zero. -/
theorem C7_negative_n_cex :
    taggerCall idStemmer (some (fun _ => (1 : ℚ))) 3 (strL ("aa bb. cc dd.")) (-1)
      = .ok [mtAABB] ∧ ([mtAABB] : List MultiTag) ≠ [] :=
  ⟨by with_unfolding_all rfl, by simp⟩

/-- Claim C7 amended: for every nonnegative `n` the tagger returns the
first `n` elements of the rater's sorted output (fewer when fewer exist,
empty for `n = 0`), highest effective rating first; for negative `n`
Python slice semantics apply instead (see the counterexample). -/
theorem C7_truncation (stemmer : Tag → Tag) (w : Str → ℚ) (hw : ∀ s, 0 ≤ w s)
    (msize : ℕ) (text : Str) (n : ℤ) (hn : 0 ≤ n) (full : List MultiTag)
    (hfull : raterCall (some w) msize ((readerCall text).map stemmer) = .ok full) :
    taggerCall stemmer (some w) msize text n = .ok (full.take n.toNat) ∧
    (full.take n.toNat).length ≤ n.toNat ∧
    (n = 0 → full.take n.toNat = []) ∧
    (full.take n.toNat).Pairwise (fun a b => ¬ mtLt b a) := by
  refine ⟨?_, List.length_take_le _ _, ?_, ?_⟩
  · unfold taggerCall
    rw [hfull]
    show Except.ok (pySliceTo full n) = Except.ok (full.take n.toNat)
    rw [pySliceTo, if_pos hn]
  · intro h0
    subst h0
    simp
  · exact (raterOk_pairwise w hw msize _ full hfull).sublist (List.take_sublist _ _)

theorem C7_truncation_witness :
    taggerCall idStemmer (some (fun _ => (1 : ℚ))) 3 (strL ("aa")) 1
      = .ok ([mtAAt].take (1 : ℤ).toNat) ∧
    ([mtAAt].take (1 : ℤ).toNat).length ≤ (1 : ℤ).toNat ∧
    ((1 : ℤ) = 0 → [mtAAt].take (1 : ℤ).toNat = []) ∧
    ([mtAAt].take (1 : ℤ).toNat).Pairwise (fun a b => ¬ mtLt b a) :=
  C7_truncation idStemmer (fun _ => 1) (fun _ => zero_le_one) 3 (strL ("aa")) 1
    (by decide) [mtAAt] (by with_unfolding_all rfl)

/-- Claim C8: the empty tag sequence yields `.ok []` from the rater — no
division by the zero total count is attempted because none of the loops
ever runs — and empty or delimiter-only (malformed) text yields `.ok []`
from the tagger, never an error. -/
theorem C8_empty_inputs :
    (∀ (g : Option (Str → ℚ)) (msize : ℕ), raterCall g msize [] = .ok []) ∧
    (∀ (stemmer : Tag → Tag) (g : Option (Str → ℚ)) (msize : ℕ) (n : ℤ),
      taggerCall stemmer g msize (strL ("")) n = .ok []) ∧
    (∀ (stemmer : Tag → Tag) (g : Option (Str → ℚ)) (msize : ℕ) (n : ℤ),
      taggerCall stemmer g msize (strL (".!?")) n = .ok []) := by
  have hslice : ∀ n : ℤ, pySliceTo [] n = [] := by
    intro n
    rw [pySliceTo]
    split <;> simp
  refine ⟨fun g msize => rfl, fun s g m n => ?_, fun s g m n => ?_⟩
  · show Except.ok (pySliceTo [] n) = Except.ok []
    rw [hslice]
  · show Except.ok (pySliceTo [] n) = Except.ok []
    rw [hslice]

/-- Claim C9: every tag in a successful rater output has a surface of at
least 2 characters: the one-character purge discards, by stem, every set
element whose surface is shorter, and each set element is itself examined
by the loop over the candidate pool. -/
theorem C9_length_filter (g : Option (Str → ℚ)) (msize : ℕ) (tags0 : List Tag)
    (res : List MultiTag) (h : raterCall g msize tags0 = .ok res) :
    ∀ m ∈ res, 2 ≤ m.string.length := by
  obtain ⟨tags, _, v, hf, hres⟩ := raterCall_ok_decomp g msize tags0 res h
  subst hres
  intro m hm
  have hmv : m ∈ v := (mem_sortLe mtLeB v m).mp hm
  have hmp := mem_dedupAux m [] _ (filterPass_subset _ _ _ _ hf m hmv)
  by_contra hlt
  push_neg at hlt
  exact filterPass_no_short _ _ _ _ hf m hmv m hmp hlt rfl

theorem C9_length_filter_witness :
    2 ≤ (mtSeed tagAA).string.length :=
  C9_length_filter (some (fun _ => 1)) 3 [tagAA] [mtSeed tagAA]
    (by with_unfolding_all rfl) (mtSeed tagAA) (List.mem_singleton_self _)

/-- Claim C10 counterexample: a unit tag with an empty stem breaks the
stem-join shape — the seed's stem falls back to the surface (`stem or
string`), so the generated candidate's stem `"xy"` is not the space-join
of the stems of any contiguous run of the input (the only run joins to
`""`). -/
theorem C10_stem_fallback_cex :
    ∃ m ∈ genAll [(⟨strL ("xy"), [], 1, false⟩ : Tag)] 1, ∀ i n, 1 ≤ n →
      i + n ≤ ([(⟨strL ("xy"), [], 1, false⟩ : Tag)] : List Tag).length →
      m.stem ≠ joinSp (((([(⟨strL ("xy"), [], 1, false⟩ : Tag)] : List Tag).drop i).take n).map
        (fun t => t.stem)) := by
  refine ⟨mtSeed ⟨strL ("xy"), [], 1, false⟩, ?_, ?_⟩
  · have hg : genAll [(⟨strL ("xy"), [], 1, false⟩ : Tag)] 1
        = [mtSeed ⟨strL ("xy"), [], 1, false⟩] := rfl
    rw [hg]
    exact List.mem_singleton_self _
  · intro i n h1 h2
    have hin : i = 0 ∧ n = 1 := by
      simp only [List.length_singleton] at h2
      omega
    obtain ⟨rfl, rfl⟩ := hin
    decide

/-- Claim C10 amended: for `multitag_size ≥ 1` and inputs whose unit stems
are nonempty (otherwise the seed's `stem or string` fallback applies, see
the counterexample), every candidate in the pool has size between 1 and
`multitag_size` and its stem (resp. surface) is exactly the space-join of
the stems (resp. surfaces) of a contiguous run of input tags in document
order; with `multitag_size = 1` every candidate, and hence every output
tag, is a single unit tag. -/
theorem C10_candidate_shape (tags : List Tag) (msize : ℕ) (hms : 1 ≤ msize)
    (hstem : ∀ t ∈ tags, t.stem ≠ []) :
    (∀ m ∈ genAll tags msize, ∃ i e, e + 1 ≤ msize ∧ i + e + 1 ≤ tags.length ∧
      m.size = e + 1 ∧
      m.stem = joinSp (((tags.drop i).take (e + 1)).map (fun t => t.stem)) ∧
      m.string = joinSp (((tags.drop i).take (e + 1)).map (fun t => t.string))) ∧
    (msize = 1 → ∀ (w : Str → ℚ) (res : List MultiTag),
      raterCall (some w) msize tags = .ok res → ∀ m ∈ res, m.size = 1) := by
  constructor
  · intro m hm
    obtain ⟨i, e, hlen, hsz, rfl, _⟩ := genAll_sound tags msize m hm
    refine ⟨i, e, ?_, hlen, chainE_size tags i e, ?_, chainE_string tags i e (by omega)⟩
    · rcases hsz with h0 | h0
      · omega
      · exact h0
    · apply chainE_stem tags i e (by omega)
      intro k hk
      exact hstem _ (tagAt_mem tags (i + k) (by omega))
  · intro h1 w res hres m hm
    subst h1
    obtain ⟨tags', _, v, hf, hres2⟩ := raterCall_ok_decomp _ _ _ _ hres
    subst hres2
    have hmv : m ∈ v := (mem_sortLe mtLeB v m).mp hm
    have hmp := mem_dedupAux m [] _ (filterPass_subset _ _ _ _ hf m hmv)
    obtain ⟨i, e, _, hsz, rfl, _⟩ := genAll_sound tags' 1 m hmp
    rw [chainE_size]
    rcases hsz with h0 | h0
    · omega
    · omega

theorem C10_candidate_shape_witness :
    (∀ m ∈ genAll [tagAA, tagBB] 3, ∃ i e, e + 1 ≤ 3 ∧
      i + e + 1 ≤ ([tagAA, tagBB] : List Tag).length ∧
      m.size = e + 1 ∧
      m.stem = joinSp (((([tagAA, tagBB] : List Tag).drop i).take (e + 1)).map
        (fun t => t.stem)) ∧
      m.string = joinSp (((([tagAA, tagBB] : List Tag).drop i).take (e + 1)).map
        (fun t => t.string))) ∧
    ((3 : ℕ) = 1 → ∀ (w : Str → ℚ) (res : List MultiTag),
      raterCall (some w) 3 [tagAA, tagBB] = .ok res → ∀ m ∈ res, m.size = 1) :=
  C10_candidate_shape [tagAA, tagBB] 3 (by decide) (by decide)
